import Mathlib

/-!
Verification development for a logistic Generalized Additive Model (GAM)
implementation (`pygam.py`).  The exact rational / real arithmetic below
shallowly embeds the source code: pure numerical routines become functions
over `ℚ` or `ℝ`, the stateful PIRLS loop becomes explicit state passing,
and fallible construction returns `Except`.
-/

set_option maxRecDepth 4000

/-! ## Configuration (`LogisticGAM.__init__`) -/

/-- Hyperparameters of `LogisticGAM`, as stored by `__init__`.  Numeric
parameters are modelled as rationals; "is an `int`" is modelled as the
rational having denominator 1. -/
structure LogisticGAMParams where
  lam : ℚ
  n_iter : ℚ
  tol : ℚ
  n_knots : ℚ
  diff_order : ℚ
  spline_order : ℚ

/-- Constructor of `LogisticGAM`.  The source asserts, in this order:
`n_iter >= 1` and integral, `n_knots >= 0` and integral,
`spline_order >= 1` and integral.  `lam`, `tol` and `diff_order` are stored
without any check.  A failed `assert` is modelled as `Except.error`. -/
def LogisticGAM.init (lam n_iter tol n_knots diff_order spline_order : ℚ) :
    Except String LogisticGAMParams :=
  if ¬(1 ≤ n_iter ∧ n_iter.den = 1) then Except.error "n_iter must be int >= 1"
  else if ¬(0 ≤ n_knots ∧ n_knots.den = 1) then Except.error "n_knots must be int >= 0"
  else if ¬(1 ≤ spline_order ∧ spline_order.den = 1) then
    Except.error "spline_order must be int >= 1"
  else Except.ok ⟨lam, n_iter, tol, n_knots, diff_order, spline_order⟩

/-! ## Spline basis (`b_spline_basis`) -/

/-- Sorted copy of the knot list (`np.sort(boundary_knots)`). -/
def sorted_knots (ks : List ℚ) : List ℚ := List.insertionSort (· ≤ ·) ks

/-- Length of the augmented knot vector
`np.r_[min * ones(order-1), sort(knots), max * ones(order-1)]`. -/
def aug_len (ks : List ℚ) (order : ℕ) : ℕ := (order - 1) + ks.length + (order - 1)

/-- Entry `i` of the augmented knot vector: the minimum knot repeated
`order-1` times, then the sorted knots, then the maximum knot repeated
`order-1` times.  The minimum (resp. maximum) of the list is its sorted
copy's first (resp. last) element.  Indices past the end return the
maximum knot, which keeps the function monotone. -/
def aug_knots (ks : List ℚ) (order : ℕ) : ℕ → ℚ := fun i =>
  if i < order - 1 then (sorted_knots ks).getD 0 0
  else if i < order - 1 + ks.length then (sorted_knots ks).getD (i - (order - 1)) 0
  else (sorted_knots ks).getD (ks.length - 1) 0

/-- Order-1 (haar / indicator) initialization of the basis row for value `x`
(source lines 29-31).  Entry `j` is the indicator of
`aug_knots[j] <= x < aug_knots[j+1]`; afterwards the source assigns
column `-order` (that is `L - 1 - order`) to 1 on rows with
`x >= aug_knots[-1]`, and column `order` to 1 on rows with
`x < aug_knots[0]` (the later assignment winning on overlap). -/
def haar_bases (t : ℕ → ℚ) (L order : ℕ) (x : ℚ) : ℕ → ℚ := fun j =>
  if j = order ∧ x < t 0 then 1
  else if j = L - 1 - order ∧ t (L - 1) ≤ x then 1
  else if t j ≤ x ∧ x < t (j + 1) then 1 else 0

/-- One De Boor recursion step at target order `m` (source lines 36-47):
each new basis value blends columns `j` and `j+1` of the previous order,
and a term whose knot-interval width is zero is set to 0 instead of being
divided (the `maskleft` / `maskright` bookkeeping). -/
def de_boor_step (t : ℕ → ℚ) (x : ℚ) (m : ℕ) (B : ℕ → ℚ) : ℕ → ℚ := fun j =>
  (if t (m - 1 + j) = t j then 0 else (x - t j) / (t (m - 1 + j) - t j) * B j) +
  (if t (m + j) = t (j + 1) then 0 else (t (m + j) - x) / (t (m + j) - t (j + 1)) * B (j + 1))

/-- Basis row of order `s+1`: `s = 0` is the haar initialization, and each
successive order is one De Boor step (the `for m in range(2, order+1)` loop). -/
def bases_of_order (t : ℕ → ℚ) (L order : ℕ) (x : ℚ) : ℕ → ℕ → ℚ
  | 0 => haar_bases t L order x
  | s + 1 => de_boor_step t x (s + 2) (bases_of_order t L order x s)

/-- Entry `j` of the row of `b_spline_basis(x, knots, order)` for the value
`x`; the row has `aug_len - order` meaningful columns. -/
def b_spline_basis (ks : List ℚ) (order : ℕ) (x : ℚ) : ℕ → ℚ :=
  bases_of_order (aug_knots ks order) (aug_len ks order) order x (order - 1)

/-- Number of columns of `b_spline_basis(x, knots, order)`. -/
def basis_width (ks : List ℚ) (order : ℕ) : ℕ := aug_len ks order - order

/-- Sum of one row of the spline basis matrix (zero entries contribute
nothing, so this is the sum of the row's nonzero entries). -/
def basis_row_sum (ks : List ℚ) (order : ℕ) (x : ℚ) : ℚ :=
  ∑ j ∈ Finset.range (basis_width ks order), b_spline_basis ks order x j

/-! ## Penalty assembly (`proto_P_`, `P_`) -/

/-- Identity matrix `np.eye(n)` as a function-matrix. -/
def mat_eye (nn : ℕ) : ℕ → ℕ → ℚ := fun i j => if i = j ∧ i < nn then 1 else 0

/-- One column-difference `np.diff(M)` along the last axis. -/
def diff_cols (M : ℕ → ℕ → ℚ) : ℕ → ℕ → ℚ := fun i j => M i (j + 1) - M i j

/-- Proto-penalty matrix (source `proto_P_`): zero for a single-column
(intercept) block, otherwise `D @ D.T` where
`D = np.diff(np.eye(n), n=diff_order)` has `n - diff_order` columns. -/
def proto_P_ (diff_order nn : ℕ) : ℕ → ℕ → ℚ :=
  if nn = 1 then fun _ _ => 0
  else fun i j =>
    ∑ kk ∈ Finset.range (nn - diff_order),
      (diff_cols^[diff_order] (mat_eye nn)) i kk * (diff_cols^[diff_order] (mat_eye nn)) j kk

/-- Block-diagonal concatenation `sp.sparse.block_diag` of the lambda-scaled
proto-penalties, one block per entry of `n_bases_`. -/
def block_diag_P (lam : ℚ) (diff_order : ℕ) : List ℕ → ℕ → ℕ → ℚ
  | [] => fun _ _ => 0
  | nn :: rest => fun i j =>
    if i < nn ∧ j < nn then lam * proto_P_ diff_order nn i j
    else if nn ≤ i ∧ nn ≤ j then block_diag_P lam diff_order rest (i - nn) (j - nn)
    else 0

/-- Full penalty matrix (source `P_`): the block diagonal of the scaled
proto-penalties plus the ridge `sp.sparse.diags(ones(len(b_)) * 1e-7)`
on the diagonal of the full (`ns.sum`-sized) matrix. -/
def P_ (lam : ℚ) (diff_order : ℕ) (ns : List ℕ) : ℕ → ℕ → ℚ := fun i j =>
  block_diag_P lam diff_order ns i j + (if i = j ∧ i < ns.sum then 1 / 10000000 else 0)

/-! ## Mutable model attributes touched by prediction (`bases_`) -/

/-- The model attributes read or written by `predict_proba`:
`spline_order` (read), `knots_` and `b_` (read), `n_bases_` (reassigned
by `bases_`). -/
structure GamModel where
  spline_order : ℕ
  b_ : Option (List ℚ)
  knots_ : List (List ℚ)
  n_bases_ : List ℕ

/-- State effect of `bases_(X)` where `X` has `nf` feature columns: the
method rebinds `n_bases_` to `[1]` followed by the column count of each
feature's spline block; `zip(X.T, self.knots_)` pairs the first
`min nf knots_.length` features with their knots. -/
def bases_state (m : GamModel) (nf : ℕ) : GamModel :=
  { m with n_bases_ := 1 :: ((m.knots_.take nf).map (fun ks => basis_width ks m.spline_order)) }

/-- State effect of `predict_proba(X)`: `predict_proba` calls `log_odds_`,
which calls `bases_` (the only attribute mutation on that path); the
logistic transform itself touches no attribute. -/
def predict_proba_state (m : GamModel) (nf : ℕ) : GamModel := bases_state m nf

/-- Value `bases_` assigns to `n_bases_` during `fit`: `fit` derives one
knot vector per feature column of `X`, so at fit time every stored knot
vector contributes one spline block after the intercept. -/
def fit_n_bases (m : GamModel) : List ℕ :=
  1 :: m.knots_.map (fun ks => basis_width ks m.spline_order)

/-! ## PIRLS solver and diagnostics (`pirls_` and the `estimate_*` methods)

The float arithmetic of the solver is embedded as exact real arithmetic.
`B` is the basis matrix built by `bases_` (with `k` columns), `P` the
penalty matrix, `y` the response vector, and `sel` the random row
subsample drawn by `estimate_edof_` (the ambient `np.random` state passed
explicitly). -/

/-- Logistic transform (source `proba_`): `1/(1 + exp(-log_odds))`. -/
noncomputable def proba_ (log_odds : ℝ) : ℝ := 1 / (1 + Real.exp (-log_odds))

/-- Linear predictor (source `log_odds_`): `bases.dot(b_)`. -/
def log_odds_ {n k : ℕ} (B : Matrix (Fin n) (Fin k) ℝ) (b : Fin k → ℝ) : Fin n → ℝ :=
  B.mulVec b

/-- Fitted probabilities (source `predict_proba`): the logistic transform
of the linear predictor. -/
noncomputable def predict_proba {n k : ℕ} (B : Matrix (Fin n) (Fin k) ℝ) (b : Fin k → ℝ) :
    Fin n → ℝ := fun i => proba_ (log_odds_ B b i)

/-- Hard classification (source `predict`): `predict_proba(X) > 0.5`. -/
noncomputable def predict {n k : ℕ} (B : Matrix (Fin n) (Fin k) ℝ) (b : Fin k → ℝ) :
    Fin n → Prop := fun i => predict_proba B b i > 0.5

/-- Training accuracy (source `accuracy_`):
`((proba > 0.5).astype(int) == y).mean()`. -/
noncomputable def accuracy_ {n : ℕ} (y p : Fin n → ℝ) : ℝ :=
  (∑ i, if (if p i > 0.5 then (1 : ℝ) else 0) = y i then (1 : ℝ) else 0) / n

/-- Bernoulli log-likelihood (source `loglikelihood_`). -/
noncomputable def loglikelihood_ {n : ℕ} (y p : Fin n → ℝ) : ℝ :=
  ∑ i, (y i * Real.log (p i) + (1 - y i) * Real.log (1 - p i))

/-- Working response (source `pseudo_data_`):
`log_odds + (y - proba) / (proba * (1 - proba))`. -/
noncomputable def pseudo_data_ (y log_odds p : ℝ) : ℝ :=
  log_odds + (y - p) / (p * (1 - p))

/-- Working weights (source `weights_`): the diagonal matrix of
`proba * (1 - proba)`. -/
def weights_ {n : ℕ} (p : Fin n → ℝ) : Matrix (Fin n) (Fin n) ℝ :=
  Matrix.diagonal (fun i => p i * (1 - p i))

/-- Euclidean norm `np.linalg.norm`. -/
noncomputable def norm2 {m : ℕ} (v : Fin m → ℝ) : ℝ := Real.sqrt (∑ i, v i ^ 2)

/-- Effective degrees of freedom (source `estimate_edof_`): the diagonal
of `B @ inner @ BW` summed over the subsampled rows `sel`, scaled by
`size / len(sel)`. -/
noncomputable def estimate_edof_ {n k : ℕ} (B : Matrix (Fin n) (Fin k) ℝ)
    (inner : Matrix (Fin k) (Fin k) ℝ) (BW : Matrix (Fin k) (Fin n) ℝ)
    (sel : Finset (Fin n)) : ℝ :=
  ((n : ℝ) / sel.card) * ∑ i ∈ sel, (B * inner * BW) i i

/-- Residual standard error (source `estimate_rse_`):
`norm(sqrt(W) @ (y - proba))^2 / (n - edof)`. -/
noncomputable def estimate_rse_ {n : ℕ} (y p : Fin n → ℝ) (W : Matrix (Fin n) (Fin n) ℝ)
    (edof : ℝ) : ℝ :=
  norm2 ((W.map Real.sqrt).mulVec (fun i => y i - p i)) ^ 2 / ((n : ℝ) - edof)

/-- Parameter standard errors (source `estimate_se_`):
`sqrt(diagonal(inner @ BW @ B @ inner) * rse)`. -/
noncomputable def estimate_se_ {n k : ℕ} (B : Matrix (Fin n) (Fin k) ℝ)
    (inner : Matrix (Fin k) (Fin k) ℝ) (BW : Matrix (Fin k) (Fin n) ℝ) (rse : ℝ) :
    Fin k → ℝ := fun j => Real.sqrt ((inner * BW * B * inner) j j * rse)

/-- Akaike Information Criterion (source `estimate_AIC_`):
`-2 * loglikelihood + 2 * edof`. -/
noncomputable def estimate_AIC_ {n : ℕ} (y p : Fin n → ℝ) (edof : ℝ) : ℝ :=
  -2 * loglikelihood_ y p + 2 * edof

/-- Corrected AIC (source `estimate_AICc_`, on the path where `aic_` has
just been computed):
`aic + 2 * (edof+1) * (edof+2) / (n - edof - 2)`, the division performed
unconditionally; `nsamp` is `y.shape[0]`.  Real division totalizes the
float division (a zero denominator yields the junk value 0 where the
floats would silently yield a non-finite value). -/
noncomputable def estimate_AICc_ (aic edof : ℝ) (nsamp : ℕ) : ℝ :=
  aic + 2 * (edof + 1) * (edof + 2) / ((nsamp : ℝ) - edof - 2)

/-- Exit conditions of the PIRLS loop: convergence (`diff < tol`),
saturation (`proba` hits exactly 0 or 1), or exhaustion of `n_iter`. -/
inductive PirlsExit
  | Converged
  | Saturated
  | Exhausted
deriving DecidableEq

/-- Fit state threaded through the PIRLS loop: the coefficient vector, the
five diagnostics (unset = `none`, as the `None` attributes of a fresh
model), and the three iteration logs. -/
structure FitState (n k : ℕ) where
  b : Fin k → ℝ
  edof : Option ℝ
  rse : Option ℝ
  se : Option (Fin k → ℝ)
  aic : Option ℝ
  aicc : Option ℝ
  acc : List ℝ
  nll : List ℝ
  diffs : List ℝ

open Classical in
/-- One iteration of the PIRLS loop body (source lines 180-208).  Returns
the updated state and `some exit` when the body breaks out of the loop
(saturation or convergence), `none` when the loop continues. -/
noncomputable def pirlsStep {n k : ℕ} (B : Matrix (Fin n) (Fin k) ℝ)
    (P : Matrix (Fin k) (Fin k) ℝ) (y : Fin n → ℝ) (tol : ℝ) (sel : Finset (Fin n))
    (st : FitState n k) : FitState n k × Option PirlsExit :=
  let lo := log_odds_ B st.b
  let p := fun i => proba_ (lo i)
  let st1 := { st with acc := st.acc ++ [accuracy_ y p], nll := st.nll ++ [-loglikelihood_ y p] }
  if (∃ i, p i = 0) ∨ (∃ i, p i = 1) then (st1, some PirlsExit.Saturated)
  else
    let W := weights_ p
    let z := fun i => pseudo_data_ (y i) (lo i) (p i)
    let BW := B.transpose * W
    let inner := (BW * B + P)⁻¹
    let bnew := (inner * BW).mulVec z
    let d := norm2 (st.b - bnew) / norm2 bnew
    let st2 := { st1 with diffs := st1.diffs ++ [d], b := bnew }
    if d < tol then
      let ed := estimate_edof_ B inner BW sel
      let rs := estimate_rse_ y p W ed
      let ai := estimate_AIC_ y p ed
      let st3 := { st2 with edof := some ed, rse := some rs, se := some (estimate_se_ B inner BW rs), aic := some ai, aicc := some (estimate_AICc_ ai ed n) }
      (st3, some PirlsExit.Converged)
    else (st2, none)

/-- The PIRLS loop `for _ in range(n_iter)` (source `pirls_`): run up to
`fuel` iterations of the body; falling off the loop is the `Exhausted`
("did not converge") exit. -/
noncomputable def pirlsIter {n k : ℕ} (B : Matrix (Fin n) (Fin k) ℝ)
    (P : Matrix (Fin k) (Fin k) ℝ) (y : Fin n → ℝ) (tol : ℝ) (sel : Finset (Fin n)) :
    ℕ → FitState n k → FitState n k × PirlsExit
  | 0, st => (st, PirlsExit.Exhausted)
  | fuel + 1, st =>
    match pirlsStep B P y tol sel st with
    | (st2, some e) => (st2, e)
    | (st2, none) => pirlsIter B P y tol sel fuel st2

/-! ## Theorems -/

/-- C1: evaluation of the code's AICc at a failing input.  With `n = 10`
samples and `edof = 8` the denominator `n - edof - 2` is exactly zero, yet
`estimate_AICc_` performs the division unconditionally — there is no guard
and no distinct numerical condition; with real-division semantics the junk
value `aic + 0` comes back (the floats would silently return a non-finite
value). -/
theorem C1_unguarded_division :
    ((10 : ℝ) - 8 - 2 = 0) ∧ estimate_AICc_ 3 8 10 = 3 := by
  refine ⟨by norm_num, ?_⟩
  unfold estimate_AICc_
  norm_num

/-- C2 counterexample: `lam = -1` violates the configuration contract
(`lam` must be a positive real), yet construction succeeds and returns a
model instance — no configuration error is raised. -/
theorem C2_counterexample :
    ((-1 : ℚ) ≤ 0) ∧
    LogisticGAM.init (-1) 100 (1 / 100000) 20 1 4 =
      Except.ok ⟨-1, 100, 1 / 100000, 20, 1, 4⟩ := by
  exact ⟨by norm_num, rfl⟩

/-- C2 amended: construction succeeds exactly when `n_iter` is an integer
at least 1, `n_knots` an integer at least 0, and `spline_order` an integer
at least 1; `lam`, `tol` and `diff_order` are never validated. -/
theorem C2_amended_validation (lam n_iter tol n_knots diff_order spline_order : ℚ) :
    (∃ p, LogisticGAM.init lam n_iter tol n_knots diff_order spline_order = Except.ok p) ↔
      ((1 ≤ n_iter ∧ n_iter.den = 1) ∧ (0 ≤ n_knots ∧ n_knots.den = 1) ∧
        (1 ≤ spline_order ∧ spline_order.den = 1)) := by
  unfold LogisticGAM.init
  split_ifs with h1 h2 h3 <;> simp_all

/-- C3: evaluation of the haar initialization at the boundaries with knots
`[0, 1, 2, 3]` and `order 4` (augmented length 10, columns 0..8, of which
columns 3..5 are the indicators of the nonempty intervals `[0,1)`,
`[1,2)`, `[2,3)`).  For `x = 5` at/beyond the maximum knot, column
`L - 1 - order = 5` — the last nonempty indicator basis — is activated, as
the boundary policy states.  For `x = -1` below the minimum knot, however,
neither column 0 (the literal first column) nor column 3 (the first
nonempty indicator basis) is activated; the code activates column
`order = 4` instead, one basis past the first. -/
theorem C3_haar_boundary :
    haar_bases (aug_knots [0, 1, 2, 3] 4) (aug_len [0, 1, 2, 3] 4) 4 5 5 = 1 ∧
    haar_bases (aug_knots [0, 1, 2, 3] 4) (aug_len [0, 1, 2, 3] 4) 4 (-1) 0 = 0 ∧
    haar_bases (aug_knots [0, 1, 2, 3] 4) (aug_len [0, 1, 2, 3] 4) 4 (-1) 3 = 0 ∧
    haar_bases (aug_knots [0, 1, 2, 3] 4) (aug_len [0, 1, 2, 3] 4) 4 (-1) 4 = 1 := by
  decide

/-- Entry of the block-diagonal penalty inside block `bidx`: the global
index `(take bidx).sum + i` lands on entry `(i, j)` of that block's scaled
proto-penalty. -/
lemma block_diag_P_apply (lam : ℚ) (d : ℕ) :
    ∀ (ns : List ℕ) (bidx : ℕ) (hb : bidx < ns.length) (i j : ℕ),
      i < ns.get ⟨bidx, hb⟩ → j < ns.get ⟨bidx, hb⟩ →
      block_diag_P lam d ns ((ns.take bidx).sum + i) ((ns.take bidx).sum + j) =
        lam * proto_P_ d (ns.get ⟨bidx, hb⟩) i j := by
  intro ns
  induction ns with
  | nil => intro bidx hb; exact absurd hb (by simp)
  | cons nn rest ih =>
    intro bidx hb i j hi hj
    cases bidx with
    | zero =>
      simp only [List.take_zero, List.sum_nil, Nat.zero_add]
      simp only [List.get] at hi hj
      simp [block_diag_P, hi, hj]
    | succ b =>
      simp only [List.take_succ_cons, List.sum_cons]
      simp only [List.get] at hi hj ⊢
      have hb2 : b < rest.length := by simpa using hb
      have key := ih b hb2 i j hi hj
      have e1 : nn + (rest.take b).sum + i - nn = (rest.take b).sum + i := by omega
      have e2 : nn + (rest.take b).sum + j - nn = (rest.take b).sum + j := by omega
      have hni : ¬(nn + (rest.take b).sum + i < nn ∧ nn + (rest.take b).sum + j < nn) := by
        intro h
        omega
      simp only [block_diag_P, hni, if_false]
      rw [if_pos ⟨by omega, by omega⟩, e1, e2, key]

/-- Within-block global indices stay below the total size `ns.sum`. -/
lemma take_sum_add_lt :
    ∀ (ns : List ℕ) (bidx : ℕ) (hb : bidx < ns.length) (i : ℕ),
      i < ns.get ⟨bidx, hb⟩ → (ns.take bidx).sum + i < ns.sum := by
  intro ns
  induction ns with
  | nil => intro bidx hb; exact absurd hb (by simp)
  | cons nn rest ih =>
    intro bidx hb i hi
    cases bidx with
    | zero => simp only [List.get] at hi; simp; omega
    | succ b =>
      simp only [List.take_succ_cons, List.sum_cons, List.get] at hi ⊢
      have := ih b (by simpa using hb) i hi
      omega

/-- C7: the proto-penalty of a size-1 block is zero; for any other size it
is `D * D.T` with `D` the `diff_order`-fold column difference of the
identity; and the assembled penalty at global indices inside block `bidx`
equals that block's lambda-scaled proto-penalty plus the uniform `1e-7`
ridge on the diagonal. -/
theorem C7_penalty (lam : ℚ) (d : ℕ) (ns : List ℕ) (bidx : ℕ) (hb : bidx < ns.length)
    (i j : ℕ) (hi : i < ns.get ⟨bidx, hb⟩) (hj : j < ns.get ⟨bidx, hb⟩) :
    (∀ a b : ℕ, proto_P_ d 1 a b = 0) ∧
    (∀ (nn a b : ℕ), nn ≠ 1 → proto_P_ d nn a b =
      ∑ kk ∈ Finset.range (nn - d),
        (diff_cols^[d] (mat_eye nn)) a kk * (diff_cols^[d] (mat_eye nn)) b kk) ∧
    P_ lam d ns ((ns.take bidx).sum + i) ((ns.take bidx).sum + j) =
      lam * proto_P_ d (ns.get ⟨bidx, hb⟩) i j + (if i = j then 1 / 10000000 else 0) := by
  refine ⟨fun a b => by simp [proto_P_], fun nn a b h => by simp [proto_P_, h], ?_⟩
  unfold P_
  rw [block_diag_P_apply lam d ns bidx hb i j hi hj]
  congr 1
  by_cases hij : i = j
  · subst hij
    rw [if_pos rfl, if_pos ⟨rfl, take_sum_add_lt ns bidx hb i hi⟩]
  · rw [if_neg hij, if_neg ?_]
    intro h
    exact hij (by omega)

/-- C7 witness: concrete blocks `[1, 3]` (intercept plus one 3-column
spline block), block index 1, entry `(1, 1)`. -/
theorem C7_witness :
    (∀ a b : ℕ, proto_P_ 1 1 a b = 0) ∧
    (∀ (nn a b : ℕ), nn ≠ 1 → proto_P_ 1 nn a b =
      ∑ kk ∈ Finset.range (nn - 1),
        (diff_cols^[1] (mat_eye nn)) a kk * (diff_cols^[1] (mat_eye nn)) b kk) ∧
    P_ (3 / 5) 1 [1, 3] (1 + 1) (1 + 1) =
      3 / 5 * proto_P_ 1 3 1 1 + (if 1 = 1 then 1 / 10000000 else 0) :=
  C7_penalty (3 / 5) 1 [1, 3] 1 (by decide) 1 1 (by decide) (by decide)

/-- C8: hard classification is exactly the fitted probability thresholded
at one half, elementwise, for every basis matrix and coefficient vector
(in the source, `predict` is defined as `predict_proba(X) > 0.5`). -/
theorem C8_predict_is_thresholded_proba {n k : ℕ} (B : Matrix (Fin n) (Fin k) ℝ)
    (b : Fin k → ℝ) (i : Fin n) : predict B b i ↔ predict_proba B b i > 0.5 :=
  Iff.rfl

/-- C10: calling `predict_proba` (through `bases_`) leaves `b_` and
`knots_` untouched; it does reassign `n_bases_`, but when `X` has as many
feature columns as there are stored knot vectors the recomputed value is
exactly the fit-time value. -/
theorem C10_predict_frame (m : GamModel) (nf : ℕ) (h : nf = m.knots_.length) :
    (predict_proba_state m nf).b_ = m.b_ ∧
    (predict_proba_state m nf).knots_ = m.knots_ ∧
    (predict_proba_state m nf).n_bases_ = fit_n_bases m := by
  subst h
  refine ⟨rfl, rfl, ?_⟩
  simp [predict_proba_state, bases_state, fit_n_bases, List.take_length]

/-- C10 witness: a model with one stored knot vector, queried with a
one-column input. -/
theorem C10_witness :
    (predict_proba_state ⟨4, none, [[0, 1]], []⟩ 1).b_ = none ∧
    (predict_proba_state ⟨4, none, [[0, 1]], []⟩ 1).knots_ = [[0, 1]] ∧
    (predict_proba_state ⟨4, none, [[0, 1]], []⟩ 1).n_bases_ =
      fit_n_bases ⟨4, none, [[0, 1]], []⟩ :=
  C10_predict_frame ⟨4, none, [[0, 1]], []⟩ 1 rfl

/-- The logistic transform is strictly positive. -/
lemma proba_pos (lo : ℝ) : 0 < proba_ lo := by
  unfold proba_
  positivity

/-- The logistic transform is strictly below one. -/
lemma proba_lt_one (lo : ℝ) : proba_ lo < 1 := by
  unfold proba_
  rw [div_lt_one (by positivity)]
  linarith [Real.exp_pos (-lo)]

/-- Under exact real arithmetic the saturation condition of the PIRLS loop
is never satisfied. -/
lemma not_saturated {n k : ℕ} (B : Matrix (Fin n) (Fin k) ℝ) (b : Fin k → ℝ) :
    ¬((∃ i, proba_ (log_odds_ B b i) = 0) ∨ (∃ i, proba_ (log_odds_ B b i) = 1)) := by
  rintro (⟨i, h⟩ | ⟨i, h⟩)
  · exact absurd h (ne_of_gt (proba_pos _))
  · exact absurd h (ne_of_lt (proba_lt_one _))

/-- One PIRLS body execution either converges or continues, but never
saturates (under exact real arithmetic). -/
lemma pirlsStep_exit {n k : ℕ} (B : Matrix (Fin n) (Fin k) ℝ) (P : Matrix (Fin k) (Fin k) ℝ)
    (y : Fin n → ℝ) (tol : ℝ) (sel : Finset (Fin n)) (st : FitState n k) :
    (pirlsStep B P y tol sel st).2 = some PirlsExit.Converged ∨
    (pirlsStep B P y tol sel st).2 = none := by
  unfold pirlsStep
  rw [if_neg (not_saturated B st.b)]
  dsimp only []
  split <;> simp

/-- C9: the logistic transform of any finite log-odds is strictly between
0 and 1, so the working-weight product `p * (1 - p)` (the pseudo-data
denominator) is nonzero, one PIRLS body execution never reports
saturation, and the whole loop never exits through `Saturated`. -/
theorem C9_no_saturation_exact_arithmetic :
    (∀ lo : ℝ, 0 < proba_ lo ∧ proba_ lo < 1 ∧ proba_ lo * (1 - proba_ lo) ≠ 0) ∧
    (∀ (n k : ℕ) (B : Matrix (Fin n) (Fin k) ℝ) (P : Matrix (Fin k) (Fin k) ℝ)
      (y : Fin n → ℝ) (tol : ℝ) (sel : Finset (Fin n)) (st : FitState n k),
      (pirlsStep B P y tol sel st).2 ≠ some PirlsExit.Saturated) ∧
    (∀ (n k : ℕ) (B : Matrix (Fin n) (Fin k) ℝ) (P : Matrix (Fin k) (Fin k) ℝ)
      (y : Fin n → ℝ) (tol : ℝ) (sel : Finset (Fin n)) (fuel : ℕ) (st : FitState n k),
      (pirlsIter B P y tol sel fuel st).2 ≠ PirlsExit.Saturated) := by
  refine ⟨?_, ?_, ?_⟩
  · intro lo
    have h1 := proba_pos lo
    have h2 := proba_lt_one lo
    refine ⟨h1, h2, ?_⟩
    have : 0 < proba_ lo * (1 - proba_ lo) := by nlinarith
    exact ne_of_gt this
  · intro n k B P y tol sel st
    rcases pirlsStep_exit B P y tol sel st with h | h <;> simp [h]
  · intro n k B P y tol sel fuel
    induction fuel with
    | zero => intro st; simp [pirlsIter]
    | succ f ih =>
      intro st
      rw [pirlsIter]
      rcases h : pirlsStep B P y tol sel st with ⟨st2, oe⟩
      rcases pirlsStep_exit B P y tol sel st with h2 | h2 <;> rw [h] at h2 <;>
        simp only [Prod.snd] at h2 <;> subst h2 <;> simp [ih]

/-- One PIRLS body execution either exits through `Converged` having set
all five diagnostics, or exits otherwise leaving each diagnostic exactly
as it was. -/
lemma pirlsStep_diag {n k : ℕ} (B : Matrix (Fin n) (Fin k) ℝ) (P : Matrix (Fin k) (Fin k) ℝ)
    (y : Fin n → ℝ) (tol : ℝ) (sel : Finset (Fin n)) (st : FitState n k) :
    ((pirlsStep B P y tol sel st).2 = some PirlsExit.Converged ∧
      (pirlsStep B P y tol sel st).1.edof.isSome ∧ (pirlsStep B P y tol sel st).1.rse.isSome ∧
      (pirlsStep B P y tol sel st).1.se.isSome ∧ (pirlsStep B P y tol sel st).1.aic.isSome ∧
      (pirlsStep B P y tol sel st).1.aicc.isSome) ∨
    ((pirlsStep B P y tol sel st).2 ≠ some PirlsExit.Converged ∧
      (pirlsStep B P y tol sel st).1.edof = st.edof ∧
      (pirlsStep B P y tol sel st).1.rse = st.rse ∧
      (pirlsStep B P y tol sel st).1.se = st.se ∧
      (pirlsStep B P y tol sel st).1.aic = st.aic ∧
      (pirlsStep B P y tol sel st).1.aicc = st.aicc) := by
  unfold pirlsStep
  dsimp only []
  split
  · simp
  · split <;> simp

/-- During the saturated exit the body does not touch the coefficient
vector: the coefficients stay the last iterate. -/
lemma pirlsStep_saturated_b {n k : ℕ} (B : Matrix (Fin n) (Fin k) ℝ)
    (P : Matrix (Fin k) (Fin k) ℝ) (y : Fin n → ℝ) (tol : ℝ) (sel : Finset (Fin n))
    (st : FitState n k) (h : (pirlsStep B P y tol sel st).2 = some PirlsExit.Saturated) :
    (pirlsStep B P y tol sel st).1.b = st.b := by
  revert h
  unfold pirlsStep
  dsimp only []
  split
  · intro _; rfl
  · split <;> simp

/-- Along the whole loop: the final state's diagnostics are all set and
the exit is `Converged`, or the exit is not `Converged` and every
diagnostic that started unset is still unset. -/
lemma pirlsIter_diag {n k : ℕ} (B : Matrix (Fin n) (Fin k) ℝ) (P : Matrix (Fin k) (Fin k) ℝ)
    (y : Fin n → ℝ) (tol : ℝ) (sel : Finset (Fin n)) (fuel : ℕ) (st : FitState n k)
    (h1 : st.edof = none) (h2 : st.rse = none) (h3 : st.se = none) (h4 : st.aic = none)
    (h5 : st.aicc = none) :
    ((pirlsIter B P y tol sel fuel st).2 = PirlsExit.Converged ∧
      (pirlsIter B P y tol sel fuel st).1.edof.isSome ∧
      (pirlsIter B P y tol sel fuel st).1.rse.isSome ∧
      (pirlsIter B P y tol sel fuel st).1.se.isSome ∧
      (pirlsIter B P y tol sel fuel st).1.aic.isSome ∧
      (pirlsIter B P y tol sel fuel st).1.aicc.isSome) ∨
    ((pirlsIter B P y tol sel fuel st).2 ≠ PirlsExit.Converged ∧
      (pirlsIter B P y tol sel fuel st).1.edof = none ∧
      (pirlsIter B P y tol sel fuel st).1.rse = none ∧
      (pirlsIter B P y tol sel fuel st).1.se = none ∧
      (pirlsIter B P y tol sel fuel st).1.aic = none ∧
      (pirlsIter B P y tol sel fuel st).1.aicc = none) := by
  induction fuel generalizing st with
  | zero =>
    right
    simp [pirlsIter, h1, h2, h3, h4, h5]
  | succ f ih =>
    rw [pirlsIter]
    have hd := pirlsStep_diag B P y tol sel st
    rcases h : pirlsStep B P y tol sel st with ⟨st2, oe⟩
    rw [h] at hd
    cases oe with
    | some e =>
      dsimp only []
      rcases hd with ⟨he, hrest⟩ | ⟨hne, hrest⟩
      · left
        simp only [Option.some.injEq] at he
        exact ⟨he, hrest⟩
      · right
        refine ⟨fun hc => hne (by rw [hc]), ?_⟩
        simp_all
    | none =>
      dsimp only []
      rcases hd with ⟨he, _⟩ | ⟨_, hq1, hq2, hq3, hq4, hq5⟩
      · exact absurd he (by simp)
      · exact ih st2 (by rw [hq1, h1]) (by rw [hq2, h2]) (by rw [hq3, h3])
          (by rw [hq4, h4]) (by rw [hq5, h5])

/-- C5: starting from a state whose diagnostics are unset (a fresh model),
the PIRLS loop's final state has its diagnostics set exactly when the loop
exits through `Converged` (relative change below tolerance); on any other
exit all five diagnostics remain unset.  The final conjunct records that a
saturated body execution leaves the coefficients untouched (they stay the
last iterate). -/
theorem C5_diagnostics_iff_converged {n k : ℕ} (B : Matrix (Fin n) (Fin k) ℝ)
    (P : Matrix (Fin k) (Fin k) ℝ) (y : Fin n → ℝ) (tol : ℝ) (sel : Finset (Fin n))
    (fuel : ℕ) (st : FitState n k) (h1 : st.edof = none) (h2 : st.rse = none)
    (h3 : st.se = none) (h4 : st.aic = none) (h5 : st.aicc = none) :
    ((pirlsIter B P y tol sel fuel st).2 = PirlsExit.Converged ↔
      (pirlsIter B P y tol sel fuel st).1.edof.isSome) ∧
    ((pirlsIter B P y tol sel fuel st).2 = PirlsExit.Converged →
      (pirlsIter B P y tol sel fuel st).1.rse.isSome ∧
      (pirlsIter B P y tol sel fuel st).1.se.isSome ∧
      (pirlsIter B P y tol sel fuel st).1.aic.isSome ∧
      (pirlsIter B P y tol sel fuel st).1.aicc.isSome) ∧
    ((pirlsIter B P y tol sel fuel st).2 ≠ PirlsExit.Converged →
      (pirlsIter B P y tol sel fuel st).1.edof = none ∧
      (pirlsIter B P y tol sel fuel st).1.rse = none ∧
      (pirlsIter B P y tol sel fuel st).1.se = none ∧
      (pirlsIter B P y tol sel fuel st).1.aic = none ∧
      (pirlsIter B P y tol sel fuel st).1.aicc = none) ∧
    (∀ s : FitState n k, (pirlsStep B P y tol sel s).2 = some PirlsExit.Saturated →
      (pirlsStep B P y tol sel s).1.b = s.b) := by
  rcases pirlsIter_diag B P y tol sel fuel st h1 h2 h3 h4 h5 with
    ⟨he, q1, q2, q3, q4, q5⟩ | ⟨he, q1, q2, q3, q4, q5⟩
  · exact ⟨⟨fun _ => q1, fun _ => he⟩, fun _ => ⟨q2, q3, q4, q5⟩,
      fun hc => absurd he hc, fun s hs => pirlsStep_saturated_b B P y tol sel s hs⟩
  · refine ⟨⟨fun hc => absurd hc he, fun hs => ?_⟩, fun hc => absurd hc he,
      fun _ => ⟨q1, q2, q3, q4, q5⟩, fun s hs => pirlsStep_saturated_b B P y tol sel s hs⟩
    rw [q1] at hs
    exact absurd hs (by simp)

/-- C5 witness: with zero iteration budget the loop exits `Exhausted` at
once from a fresh (all-diagnostics-unset) one-coefficient state. -/
theorem C5_witness :
    ((pirlsIter (0 : Matrix (Fin 1) (Fin 1) ℝ) 0 0 1 ∅ 0
        ⟨fun _ => 0, none, none, none, none, none, [], [], []⟩).2 = PirlsExit.Converged ↔
      (pirlsIter (0 : Matrix (Fin 1) (Fin 1) ℝ) 0 0 1 ∅ 0
        ⟨fun _ => 0, none, none, none, none, none, [], [], []⟩).1.edof.isSome) ∧
    ((pirlsIter (0 : Matrix (Fin 1) (Fin 1) ℝ) 0 0 1 ∅ 0
        ⟨fun _ => 0, none, none, none, none, none, [], [], []⟩).2 = PirlsExit.Converged →
      (pirlsIter (0 : Matrix (Fin 1) (Fin 1) ℝ) 0 0 1 ∅ 0
        ⟨fun _ => 0, none, none, none, none, none, [], [], []⟩).1.rse.isSome ∧
      (pirlsIter (0 : Matrix (Fin 1) (Fin 1) ℝ) 0 0 1 ∅ 0
        ⟨fun _ => 0, none, none, none, none, none, [], [], []⟩).1.se.isSome ∧
      (pirlsIter (0 : Matrix (Fin 1) (Fin 1) ℝ) 0 0 1 ∅ 0
        ⟨fun _ => 0, none, none, none, none, none, [], [], []⟩).1.aic.isSome ∧
      (pirlsIter (0 : Matrix (Fin 1) (Fin 1) ℝ) 0 0 1 ∅ 0
        ⟨fun _ => 0, none, none, none, none, none, [], [], []⟩).1.aicc.isSome) ∧
    ((pirlsIter (0 : Matrix (Fin 1) (Fin 1) ℝ) 0 0 1 ∅ 0
        ⟨fun _ => 0, none, none, none, none, none, [], [], []⟩).2 ≠ PirlsExit.Converged →
      (pirlsIter (0 : Matrix (Fin 1) (Fin 1) ℝ) 0 0 1 ∅ 0
        ⟨fun _ => 0, none, none, none, none, none, [], [], []⟩).1.edof = none ∧
      (pirlsIter (0 : Matrix (Fin 1) (Fin 1) ℝ) 0 0 1 ∅ 0
        ⟨fun _ => 0, none, none, none, none, none, [], [], []⟩).1.rse = none ∧
      (pirlsIter (0 : Matrix (Fin 1) (Fin 1) ℝ) 0 0 1 ∅ 0
        ⟨fun _ => 0, none, none, none, none, none, [], [], []⟩).1.se = none ∧
      (pirlsIter (0 : Matrix (Fin 1) (Fin 1) ℝ) 0 0 1 ∅ 0
        ⟨fun _ => 0, none, none, none, none, none, [], [], []⟩).1.aic = none ∧
      (pirlsIter (0 : Matrix (Fin 1) (Fin 1) ℝ) 0 0 1 ∅ 0
        ⟨fun _ => 0, none, none, none, none, none, [], [], []⟩).1.aicc = none) ∧
    (∀ s : FitState 1 1,
      (pirlsStep (0 : Matrix (Fin 1) (Fin 1) ℝ) 0 0 1 ∅ s).2 = some PirlsExit.Saturated →
      (pirlsStep (0 : Matrix (Fin 1) (Fin 1) ℝ) 0 0 1 ∅ s).1.b = s.b) :=
  C5_diagnostics_iff_converged (0 : Matrix (Fin 1) (Fin 1) ℝ) 0 0 1 ∅ 0
    ⟨fun _ => 0, none, none, none, none, none, [], [], []⟩ rfl rfl rfl rfl rfl

/-- C6: in a non-saturated iteration the body forms the working weights
`W = diag(p(1-p))` and working response `z = log_odds + (y-p)/(p(1-p))`,
solves `(Bᵗ W B + P)⁻¹ (Bᵗ W) z` for the new coefficients, and appends
the relative change `norm(b_old - b_new) / norm(b_new)` to the difference
log while replacing the coefficients with the new iterate. -/
theorem C6_iteration_formulas {n k : ℕ} (B : Matrix (Fin n) (Fin k) ℝ)
    (P : Matrix (Fin k) (Fin k) ℝ) (y : Fin n → ℝ) (tol : ℝ) (sel : Finset (Fin n))
    (st : FitState n k)
    (hsat : ¬((∃ i, proba_ (log_odds_ B st.b i) = 0) ∨
      (∃ i, proba_ (log_odds_ B st.b i) = 1))) :
    (pirlsStep B P y tol sel st).1.b =
      ((B.transpose * weights_ (fun i => proba_ (log_odds_ B st.b i)) * B + P)⁻¹ *
        (B.transpose * weights_ (fun i => proba_ (log_odds_ B st.b i)))).mulVec
        (fun i => pseudo_data_ (y i) (log_odds_ B st.b i) (proba_ (log_odds_ B st.b i))) ∧
    (pirlsStep B P y tol sel st).1.diffs = st.diffs ++
      [norm2 (st.b -
          ((B.transpose * weights_ (fun i => proba_ (log_odds_ B st.b i)) * B + P)⁻¹ *
            (B.transpose * weights_ (fun i => proba_ (log_odds_ B st.b i)))).mulVec
            (fun i => pseudo_data_ (y i) (log_odds_ B st.b i) (proba_ (log_odds_ B st.b i)))) /
        norm2 (((B.transpose * weights_ (fun i => proba_ (log_odds_ B st.b i)) * B + P)⁻¹ *
          (B.transpose * weights_ (fun i => proba_ (log_odds_ B st.b i)))).mulVec
          (fun i => pseudo_data_ (y i) (log_odds_ B st.b i) (proba_ (log_odds_ B st.b i))))] := by
  unfold pirlsStep
  rw [if_neg hsat]
  dsimp only []
  split <;> constructor <;> rfl

/-- C6 witness: one sample, one coefficient, zero basis matrix, fitted
probability one half (neither 0 nor 1, so the iteration is not
saturated). -/
theorem C6_witness :
    (pirlsStep (0 : Matrix (Fin 1) (Fin 1) ℝ) 0 0 1 ∅
        ⟨fun _ => 0, none, none, none, none, none, [], [], []⟩).1.b =
      (((0 : Matrix (Fin 1) (Fin 1) ℝ).transpose *
          weights_ (fun i => proba_ (log_odds_ (0 : Matrix (Fin 1) (Fin 1) ℝ) (fun _ => 0) i)) *
          (0 : Matrix (Fin 1) (Fin 1) ℝ) + 0)⁻¹ *
        ((0 : Matrix (Fin 1) (Fin 1) ℝ).transpose *
          weights_ (fun i => proba_ (log_odds_ (0 : Matrix (Fin 1) (Fin 1) ℝ) (fun _ => 0) i)))).mulVec
        (fun i => pseudo_data_ ((0 : Fin 1 → ℝ) i)
          (log_odds_ (0 : Matrix (Fin 1) (Fin 1) ℝ) (fun _ => 0) i)
          (proba_ (log_odds_ (0 : Matrix (Fin 1) (Fin 1) ℝ) (fun _ => 0) i))) ∧
    (pirlsStep (0 : Matrix (Fin 1) (Fin 1) ℝ) 0 0 1 ∅
        ⟨fun _ => 0, none, none, none, none, none, [], [], []⟩).1.diffs = [] ++
      [norm2 ((fun _ => (0 : ℝ)) -
          (((0 : Matrix (Fin 1) (Fin 1) ℝ).transpose *
              weights_ (fun i => proba_ (log_odds_ (0 : Matrix (Fin 1) (Fin 1) ℝ) (fun _ => 0) i)) *
              (0 : Matrix (Fin 1) (Fin 1) ℝ) + 0)⁻¹ *
            ((0 : Matrix (Fin 1) (Fin 1) ℝ).transpose *
              weights_ (fun i => proba_ (log_odds_ (0 : Matrix (Fin 1) (Fin 1) ℝ) (fun _ => 0) i)))).mulVec
            (fun i => pseudo_data_ ((0 : Fin 1 → ℝ) i)
              (log_odds_ (0 : Matrix (Fin 1) (Fin 1) ℝ) (fun _ => 0) i)
              (proba_ (log_odds_ (0 : Matrix (Fin 1) (Fin 1) ℝ) (fun _ => 0) i)))) /
        norm2 ((((0 : Matrix (Fin 1) (Fin 1) ℝ).transpose *
            weights_ (fun i => proba_ (log_odds_ (0 : Matrix (Fin 1) (Fin 1) ℝ) (fun _ => 0) i)) *
            (0 : Matrix (Fin 1) (Fin 1) ℝ) + 0)⁻¹ *
          ((0 : Matrix (Fin 1) (Fin 1) ℝ).transpose *
            weights_ (fun i => proba_ (log_odds_ (0 : Matrix (Fin 1) (Fin 1) ℝ) (fun _ => 0) i)))).mulVec
          (fun i => pseudo_data_ ((0 : Fin 1 → ℝ) i)
            (log_odds_ (0 : Matrix (Fin 1) (Fin 1) ℝ) (fun _ => 0) i)
            (proba_ (log_odds_ (0 : Matrix (Fin 1) (Fin 1) ℝ) (fun _ => 0) i))))] :=
  C6_iteration_formulas (0 : Matrix (Fin 1) (Fin 1) ℝ) 0 0 1 ∅
    ⟨fun _ => 0, none, none, none, none, none, [], [], []⟩
    (not_saturated (0 : Matrix (Fin 1) (Fin 1) ℝ) (fun _ => 0))

/-- Sorting preserves the knot count. -/
lemma sorted_knots_length (ks : List ℚ) : (sorted_knots ks).length = ks.length :=
  List.length_insertionSort _ ks

/-- The sorted knots list is sorted. -/
lemma sorted_knots_sorted (ks : List ℚ) : List.Sorted (· ≤ ·) (sorted_knots ks) :=
  List.sorted_insertionSort _ ks

/-- Entries of the sorted knots list are monotone in the index (within
bounds). -/
lemma sorted_knots_getD_mono (ks : List ℚ) {a b : ℕ} (hab : a ≤ b) (hb : b < ks.length) :
    (sorted_knots ks).getD a 0 ≤ (sorted_knots ks).getD b 0 := by
  have hlen : (sorted_knots ks).length = ks.length := sorted_knots_length ks
  have hb2 : b < (sorted_knots ks).length := by omega
  have ha2 : a < (sorted_knots ks).length := by omega
  rw [List.getD_eq_getElem _ _ ha2, List.getD_eq_getElem _ _ hb2]
  rcases eq_or_lt_of_le hab with rfl | hlt
  · exact le_refl _
  · have := (sorted_knots_sorted ks).rel_get_of_lt
      (a := ⟨a, ha2⟩) (b := ⟨b, hb2⟩) (by exact hlt)
    simpa [List.get_eq_getElem] using this

/-- The augmented knot vector is monotone in the index. -/
lemma aug_knots_mono (ks : List ℚ) (order : ℕ) :
    ∀ i j : ℕ, i ≤ j → aug_knots ks order i ≤ aug_knots ks order j := by
  intro i j hij
  rcases Nat.eq_zero_or_pos ks.length with hK | hK
  · have hnil : sorted_knots ks = [] :=
      List.eq_nil_of_length_eq_zero (by rw [sorted_knots_length]; exact hK)
    unfold aug_knots
    simp [hnil]
  · unfold aug_knots
    split_ifs with h1 h2 h3 h4 h5 h6 <;>
      first
        | exact le_refl _
        | exact sorted_knots_getD_mono ks (by omega) (by omega)

/-- The augmented knot at index `order - 1` is the minimum knot. -/
lemma aug_knots_min (ks : List ℚ) (order : ℕ) (hK : 1 ≤ ks.length) (ho : 1 ≤ order) :
    aug_knots ks order (order - 1) = (sorted_knots ks).getD 0 0 := by
  unfold aug_knots
  rw [if_neg (by omega), if_pos (by omega)]
  congr 1
  omega

/-- The augmented knot at index `aug_len - order` is the maximum knot. -/
lemma aug_knots_max (ks : List ℚ) (order : ℕ) (hK : 1 ≤ ks.length) (ho : 1 ≤ order) :
    aug_knots ks order (aug_len ks order - order) =
      (sorted_knots ks).getD (ks.length - 1) 0 := by
  unfold aug_knots aug_len
  rw [if_neg (by omega), if_pos (by omega)]
  congr 1
  omega

/-- Partition-of-unity invariant of the De Boor recursion: over a
monotone augmented knot vector, for `x` in the half-open interval from
knot `order - 1` to knot `L - order`, the order-`mu` basis row is
supported on columns whose knot span contains `x` and sums to 1 over its
`L - mu` meaningful columns. -/
lemma de_boor_invariant (t : ℕ → ℚ) (x : ℚ) (L order : ℕ)
    (mono : ∀ i j : ℕ, i ≤ j → t i ≤ t j)
    (ho : 1 ≤ order) (hL : 2 * order ≤ L)
    (hlo : t (order - 1) ≤ x) (hhi : x < t (L - order)) :
    ∀ mu : ℕ, 1 ≤ mu → mu ≤ order →
      (∀ j, bases_of_order t L order x (mu - 1) j ≠ 0 → t j ≤ x ∧ x < t (j + mu)) ∧
      ∑ j ∈ Finset.range (L - mu), bases_of_order t L order x (mu - 1) j = 1 := by
  have tlt : ∀ {a b : ℕ}, t a < t b → a < b := by
    intro a b hab
    by_contra hc
    push_neg at hc
    exact absurd (mono b a hc) (not_le.mpr hab)
  intro mu
  induction mu with
  | zero => omega
  | succ m ihm =>
    intro hmu hmo
    simp only [Nat.add_sub_cancel]
    rcases Nat.eq_zero_or_pos m with hm0 | hmpos
    · -- base: the order-1 (haar) row
      subst hm0
      have hnotlo : ∀ j : ℕ, ¬(j = order ∧ x < t 0) := by
        intro j hc
        have h0 := mono 0 (order - 1) (Nat.zero_le _)
        linarith [hc.2]
      have hnothi : ∀ j : ℕ, ¬(j = L - 1 - order ∧ t (L - 1) ≤ x) := by
        intro j hc
        have h0 := mono (L - order) (L - 1) (by omega)
        linarith [hc.2]
      constructor
      · intro j hj
        simp only [bases_of_order] at hj
        unfold haar_bases at hj
        rw [if_neg (hnotlo j), if_neg (hnothi j)] at hj
        by_cases h3 : t j ≤ x ∧ x < t (j + 1)
        · simpa using h3
        · rw [if_neg h3] at hj
          exact absurd rfl hj
      · have hble : order - 1 ≤ L - order - 1 := by omega
        set j0 : ℕ := Nat.findGreatest (fun i => t i ≤ x) (L - order - 1) with hj0def
        have hj0P : t j0 ≤ x := by
          have := Nat.findGreatest_spec (P := fun i => t i ≤ x) hble hlo
          simpa [hj0def] using this
        have hj0ge : order - 1 ≤ j0 := by
          have := Nat.le_findGreatest (P := fun i => t i ≤ x) hble hlo
          simpa [hj0def] using this
        have hj0le : j0 ≤ L - order - 1 := by
          have := Nat.findGreatest_le (P := fun i => t i ≤ x) (L - order - 1)
          simpa [hj0def] using this
        have hx1 : x < t (j0 + 1) := by
          rcases le_or_lt (j0 + 1) (L - order - 1) with hcase | hcase
          · by_contra hc
            push_neg at hc
            exact Nat.findGreatest_is_greatest (P := fun i => t i ≤ x)
              (by omega) hcase hc
          · exact lt_of_lt_of_le hhi (mono _ _ (by omega))
        have hsingle :
            ∑ j ∈ Finset.range (L - (0 + 1)), bases_of_order t L order x 0 j =
              bases_of_order t L order x 0 j0 := by
          apply Finset.sum_eq_single j0
          · intro b _ hbne
            simp only [bases_of_order]
            unfold haar_bases
            rw [if_neg (hnotlo b), if_neg (hnothi b), if_neg ?_]
            intro hc
            rcases Nat.lt_or_ge b j0 with hblt | hbge
            · have hup := mono (b + 1) j0 (by omega)
              linarith [hc.2]
            · have hbgt : j0 < b := by omega
              rcases le_or_lt b (L - order - 1) with hble2 | hbgt2
              · exact Nat.findGreatest_is_greatest (P := fun i => t i ≤ x)
                  hbgt hble2 hc.1
              · have hup := mono (L - order) b (by omega)
                linarith [hc.1]
          · intro hj0mem
            exact absurd (Finset.mem_range.mpr (by omega)) hj0mem
        rw [hsingle]
        simp only [bases_of_order]
        unfold haar_bases
        rw [if_neg (hnotlo j0), if_neg (hnothi j0), if_pos ⟨hj0P, hx1⟩]
    · -- step: from order m = s+1 to order s+2
      obtain ⟨s, rfl⟩ : ∃ s, m = s + 1 := ⟨m - 1, by omega⟩
      obtain ⟨hsupp, hsum⟩ := ihm (by omega) (by omega)
      simp only [Nat.add_sub_cancel] at hsupp hsum
      simp only [bases_of_order]
      unfold de_boor_step
      simp only [show ∀ j : ℕ, s + 2 - 1 + j = s + 1 + j from fun j => by omega,
        show ∀ j : ℕ, s + 2 + j = s + 1 + (j + 1) from fun j => by omega]
      constructor
      · intro j hj
        have hcases :
            (if t (s + 1 + j) = t j then 0
              else (x - t j) / (t (s + 1 + j) - t j) * bases_of_order t L order x s j) ≠ 0 ∨
            (if t (s + 1 + (j + 1)) = t (j + 1) then 0
              else (t (s + 1 + (j + 1)) - x) / (t (s + 1 + (j + 1)) - t (j + 1)) *
                bases_of_order t L order x s (j + 1)) ≠ 0 := by
          by_contra hc
          push_neg at hc
          rw [hc.1, hc.2, add_zero] at hj
          exact hj rfl
        rcases hcases with hA | hA
        · have hBj : bases_of_order t L order x s j ≠ 0 := by
            intro h0
            apply hA
            split_ifs <;> simp [h0]
          obtain ⟨ha, hb⟩ := hsupp j hBj
          exact ⟨ha, lt_of_lt_of_le hb (mono (j + (s + 1)) (j + (s + 1 + 1)) (by omega))⟩
        · have hBj : bases_of_order t L order x s (j + 1) ≠ 0 := by
            intro h0
            apply hA
            split_ifs <;> simp [h0]
          obtain ⟨ha, hb⟩ := hsupp (j + 1) hBj
          refine ⟨le_trans (mono j (j + 1) (by omega)) ha, ?_⟩
          have he : j + 1 + (s + 1) = j + (s + 1 + 1) := by omega
          rwa [he] at hb
      · have hLe : L - (s + 1) = (L - (s + 1 + 1)) + 1 := by omega
        have hBtop : bases_of_order t L order x s (L - (s + 1 + 1)) = 0 := by
          by_contra hc
          obtain ⟨h1, _⟩ := hsupp _ hc
          have hup := mono (L - order) (L - (s + 1 + 1)) (by omega)
          linarith
        have hB0 : bases_of_order t L order x s 0 = 0 := by
          by_contra hc
          obtain ⟨_, h2⟩ := hsupp 0 hc
          have h3 : t (order - 1) < t (0 + (s + 1)) := lt_of_le_of_lt hlo h2
          have := tlt h3
          omega
        rw [Finset.sum_add_distrib]
        have hwlsum :
            ∑ j ∈ Finset.range (L - (s + 1 + 1)),
              (if t (s + 1 + j) = t j then 0
                else (x - t j) / (t (s + 1 + j) - t j) * bases_of_order t L order x s j) =
            ∑ j ∈ Finset.range (L - (s + 1)),
              (if t (s + 1 + j) = t j then 0
                else (x - t j) / (t (s + 1 + j) - t j) * bases_of_order t L order x s j) := by
          rw [hLe, Finset.sum_range_succ]
          have hz :
              (if t (s + 1 + (L - (s + 1 + 1))) = t (L - (s + 1 + 1)) then 0
                else (x - t (L - (s + 1 + 1))) / (t (s + 1 + (L - (s + 1 + 1))) - t (L - (s + 1 + 1))) *
                  bases_of_order t L order x s (L - (s + 1 + 1))) = 0 := by
            split_ifs <;> simp [hBtop]
          rw [hz, add_zero]
        have hwrsum :
            ∑ j ∈ Finset.range (L - (s + 1 + 1)),
              (if t (s + 1 + (j + 1)) = t (j + 1) then 0
                else (t (s + 1 + (j + 1)) - x) / (t (s + 1 + (j + 1)) - t (j + 1)) *
                  bases_of_order t L order x s (j + 1)) =
            ∑ i ∈ Finset.range (L - (s + 1)),
              (if t (s + 1 + i) = t i then 0
                else (t (s + 1 + i) - x) / (t (s + 1 + i) - t i) *
                  bases_of_order t L order x s i) := by
          rw [hLe, Finset.sum_range_succ']
          have hz :
              (if t (s + 1 + 0) = t 0 then 0
                else (t (s + 1 + 0) - x) / (t (s + 1 + 0) - t 0) *
                  bases_of_order t L order x s 0) = 0 := by
            split_ifs <;> simp [hB0]
          rw [hz, add_zero]
        rw [hwlsum, hwrsum, ← Finset.sum_add_distrib, ← hsum]
        apply Finset.sum_congr rfl
        intro i _
        by_cases hBi : bases_of_order t L order x s i = 0
        · split_ifs <;> simp [hBi]
        · obtain ⟨h1, h2⟩ := hsupp i hBi
          have hidx : i + (s + 1) = s + 1 + i := by omega
          rw [hidx] at h2
          have hd : t i < t (s + 1 + i) := lt_of_le_of_lt h1 h2
          have hne : ¬(t (s + 1 + i) = t i) := by
            intro h
            rw [h] at hd
            exact lt_irrefl _ hd
          rw [if_neg hne, if_neg hne]
          have hdne : t (s + 1 + i) - t i ≠ 0 := sub_ne_zero.mpr hne
          field_simp
          ring

/-- C4 counterexample: with only the two boundary knots `[0, 1]`
(`n_knots = 0`, a valid knot set) and order 4, the basis row of the
boundary-extended value `x = -1` (below the minimum knot) sums to 0, not
1: the order-1 initialization activates column `order`, which is here the
degenerate interval `[max, max)`, and the zero-width-interval guards of
the recursion annihilate it. -/
theorem C4_counterexample : basis_row_sum [0, 1] 4 (-1) = 0 := by
  norm_num [basis_row_sum, basis_width, b_spline_basis, bases_of_order, de_boor_step,
    haar_bases, aug_knots, aug_len, sorted_knots, List.insertionSort, List.orderedInsert,
    Finset.sum_range_succ]

/-- C4 (amended): for every knot list, every order at least 1, and every
value `x` at or above the minimum knot and strictly below the maximum
knot, the basis row sums to 1 (partition of unity) — interior and knot
points alike, duplicates in the knot list included. -/
theorem C4_partition_of_unity (ks : List ℚ) (order : ℕ) (x : ℚ) (ho : 1 ≤ order)
    (hlo : (sorted_knots ks).getD 0 0 ≤ x)
    (hhi : x < (sorted_knots ks).getD (ks.length - 1) 0) :
    basis_row_sum ks order x = 1 := by
  have hK : 2 ≤ ks.length := by
    by_contra hc
    push_neg at hc
    have he : ks.length - 1 = 0 := by omega
    rw [he] at hhi
    linarith
  have hL : 2 * order ≤ aug_len ks order := by
    unfold aug_len
    omega
  have h1 := aug_knots_min ks order (by omega) ho
  have h2 := aug_knots_max ks order (by omega) ho
  have main := (de_boor_invariant (aug_knots ks order) x (aug_len ks order) order
    (aug_knots_mono ks order) ho hL (by rw [h1]; exact hlo) (by rw [h2]; exact hhi)
    order ho le_rfl).2
  unfold basis_row_sum basis_width b_spline_basis
  exact main

/-- C4 witness: knots `[0, 1]`, order 2, interior value `x = 1/2`. -/
theorem C4_witness :
    ((sorted_knots [0, 1]).getD 0 0 ≤ (1 / 2 : ℚ)) ∧
    ((1 / 2 : ℚ) < (sorted_knots [0, 1]).getD (([0, 1] : List ℚ).length - 1) 0) ∧
    basis_row_sum [0, 1] 2 (1 / 2) = 1 :=
  ⟨by norm_num [sorted_knots, List.insertionSort, List.orderedInsert],
    by norm_num [sorted_knots, List.insertionSort, List.orderedInsert],
    C4_partition_of_unity [0, 1] 2 (1 / 2) (by norm_num)
      (by norm_num [sorted_knots, List.insertionSort, List.orderedInsert])
      (by norm_num [sorted_knots, List.insertionSort, List.orderedInsert])⟩
